import Mathlib

/-!
Verification of the Voracious Code Storage (VCS) server, a shallow embedding
of `src/server.go` (`handleConnection` and its helpers).

Modelling conventions:

* Wire strings are byte sequences, modelled as `List Nat` (each element a
  byte value `< 256` in practice; the definitions are total on `Nat`).
* `strings.ToLower` / `strings.ToUpper` are modelled by their ASCII fast
  path (byte-wise case mapping), which is exactly what Go computes on
  all-ASCII input; the protocol developments below stay within ASCII.
* The global `fileStore` map (`map[string][][]byte`) is modelled as an
  association list with unique keys (`Store`); Go map iteration order is
  arbitrary, and the one observable that scans the map (`LIST`) is proved
  below to be determined by the key set alone, so fixing the list order
  loses no generality.
* One iteration of the `handleConnection` command loop is modelled by
  `execCommand`, taking the already-split command tokens (the result of
  `strings.Fields(strings.TrimSpace(line))`) plus the bytes that follow the
  command line on the connection (`input`), from which a `PUT` body is read.
* `make([]byte, n)` with negative `n` panics at run time in Go; this is
  modelled by the explicit outcome `Outcome.crash`.  A short read during a
  body (`io.ReadFull` failure) terminates the connection: `Outcome.fatal`.
-/

/-- Byte strings: a wire-level string as its list of byte values. -/
abbrev Str : Type := List Nat

/-- Bytes of an ASCII Lean string literal, for readable protocol constants. -/
def bytesOf (s : String) : Str := s.data.map Char.toNat

/-- ASCII byte-wise lower-casing of one byte (`A`-`Z` mapped to `a`-`z`),
the fast path of Go `strings.ToLower`. -/
def toLowerByte (b : Nat) : Nat := if 65 ≤ b ∧ b ≤ 90 then b + 32 else b

/-- ASCII byte-wise upper-casing of one byte, the fast path of Go
`strings.ToUpper`. -/
def toUpperByte (b : Nat) : Nat := if 97 ≤ b ∧ b ≤ 122 then b - 32 else b

/-- Model of `strings.ToLower` on ASCII input: lower-case every byte. -/
def strToLower (s : Str) : Str := s.map toLowerByte

/-- Model of `strings.ToUpper` on ASCII input: upper-case every byte. -/
def strToUpper (s : Str) : Str := s.map toUpperByte

/-- Membership of one byte in the `validPath` character class
`[a-zA-Z0-9/._-]` (server.go line 24). -/
def isPathByte (b : Nat) : Bool :=
  decide ((97 ≤ b ∧ b ≤ 122) ∨ (65 ≤ b ∧ b ≤ 90) ∨ (48 ≤ b ∧ b ≤ 57) ∨
    b = 47 ∨ b = 46 ∨ b = 95 ∨ b = 45)

/-- Model of `validPath.MatchString`: the regexp `^[a-zA-Z0-9/._-]+$`
matches iff the string is non-empty and every byte is in the class. -/
def validPathMatch (s : Str) : Bool := decide (s ≠ []) && s.all isPathByte

/-- Model of `strings.HasPrefix(filename, "/")`: first byte is `/` (47). -/
def startsWithSlash (s : Str) : Bool :=
  match s with
  | b :: _ => decide (b = 47)
  | [] => false

/-- Value of one decimal digit byte, `none` for a non-digit. -/
def digitVal (b : Nat) : Option Nat :=
  if 48 ≤ b ∧ b ≤ 57 then some (b - 48) else none

/-- Parses a non-empty all-digit byte string as a natural number;
`none` on the empty string or any non-digit byte. -/
def parseDigits (s : Str) : Option Nat :=
  if s = [] then none
  else s.foldl (fun acc b => acc.bind fun n => (digitVal b).map fun d => n * 10 + d)
    (some 0)

/-- Model of Go `strconv.Atoi`: an optional leading `+` or `-` sign followed
by one or more decimal digits, rejecting values outside the 64-bit `int`
range.  Note Go's `Atoi` DOES accept a sign, so `"-5"` parses to `-5`. -/
def atoi (s : Str) : Option Int :=
  match s with
  | 43 :: rest =>
      (parseDigits rest).bind fun n =>
        if n ≤ 2 ^ 63 - 1 then some (n : Int) else none
  | 45 :: rest =>
      (parseDigits rest).bind fun n =>
        if n ≤ 2 ^ 63 then some (-(n : Int)) else none
  | _ =>
      (parseDigits s).bind fun n =>
        if n ≤ 2 ^ 63 - 1 then some (n : Int) else none

/-- Fuel-driven digit expansion: with fuel above the digit count this is
plain most-significant-first decimal notation. -/
def natToDecAux : Nat → Nat → Str
  | 0, _ => []
  | fuel + 1, n =>
    if n < 10 then [48 + n]
    else natToDecAux fuel (n / 10) ++ [48 + n % 10]

/-- Decimal rendering of a natural number (as `fmt.Sprintf` with `%d`). -/
def natToDec (n : Nat) : Str := natToDecAux (n + 1) n

/-- Continuation byte test for UTF-8: `0x80 ≤ b ≤ 0xBF`. -/
def utf8Cont (b : Nat) : Bool := decide (128 ≤ b ∧ b ≤ 191)

/-- Model of Go `utf8.Valid`: the bytes are a well-formed UTF-8 encoding
(no overlong forms, no surrogates, no code points above U+10FFFF),
following the first-byte acceptance table of Go's `unicode/utf8`. -/
def utf8Valid : Str → Bool
  | [] => true
  | b :: rest =>
    if b ≤ 127 then utf8Valid rest
    else if 194 ≤ b ∧ b ≤ 223 then
      match rest with
      | c1 :: r => utf8Cont c1 && utf8Valid r
      | [] => false
    else if b = 224 then
      match rest with
      | c1 :: c2 :: r => decide (160 ≤ c1 ∧ c1 ≤ 191) && utf8Cont c2 && utf8Valid r
      | _ => false
    else if (225 ≤ b ∧ b ≤ 236) ∨ b = 238 ∨ b = 239 then
      match rest with
      | c1 :: c2 :: r => utf8Cont c1 && utf8Cont c2 && utf8Valid r
      | _ => false
    else if b = 237 then
      match rest with
      | c1 :: c2 :: r => decide (128 ≤ c1 ∧ c1 ≤ 159) && utf8Cont c2 && utf8Valid r
      | _ => false
    else if b = 240 then
      match rest with
      | c1 :: c2 :: c3 :: r =>
          decide (144 ≤ c1 ∧ c1 ≤ 191) && utf8Cont c2 && utf8Cont c3 && utf8Valid r
      | _ => false
    else if 241 ≤ b ∧ b ≤ 243 then
      match rest with
      | c1 :: c2 :: c3 :: r => utf8Cont c1 && utf8Cont c2 && utf8Cont c3 && utf8Valid r
      | _ => false
    else if b = 244 then
      match rest with
      | c1 :: c2 :: c3 :: r =>
          decide (128 ≤ c1 ∧ c1 ≤ 143) && utf8Cont c2 && utf8Cont c3 && utf8Valid r
      | _ => false
    else false

/-- Per-byte control-character test of the PUT text check (server.go lines
134-145): a byte fails iff it is `< 32` and none of tab, LF, CR, or it is
DEL (127). -/
def textByteOk (b : Nat) : Bool :=
  decide ((32 ≤ b ∨ b = 9 ∨ b = 10 ∨ b = 13) ∧ b ≠ 127)

/-- The loop of server.go lines 134-145: every payload byte passes
`textByteOk` (the `isText` flag stays `true`). -/
def textBytesOk (s : Str) : Bool := s.all textByteOk

/-- The shared `fileStore` map (`map[string][][]byte`), as an association
list from normalized path key to the ordered list of revision payloads. -/
abbrev Store : Type := List (Str × List Str)

/-- Association-list lookup, modelling Go map indexing (`fileStore[k]`
together with the `exists` flag). -/
def getAssoc {α : Type} : List (Str × α) → Str → Option α
  | [], _ => none
  | (k, v) :: rest, key => if k = key then some v else getAssoc rest key

/-- Association-list write, modelling Go map assignment `m[k] = v`:
overwrites the binding if present, else adds one. -/
def setAssoc {α : Type} : List (Str × α) → Str → α → List (Str × α)
  | [], key, v => [(key, v)]
  | (k, w) :: rest, key, v =>
      if k = key then (key, v) :: rest else (k, w) :: setAssoc rest key v

/-- The PUT storage step (server.go lines 153-172): if the file exists and
its last revision equals the payload, nothing changes and the current count
is returned; otherwise the payload is appended and the new count returned. -/
def putStore (st : Store) (key data : Str) : Store × Nat :=
  let currentRevisions := (getAssoc st key).getD []
  if currentRevisions.getLast? = some data then
    (st, currentRevisions.length)
  else
    (setAssoc st key (currentRevisions ++ [data]), currentRevisions.length + 1)

/-- Outcome of processing one command line: a normal reply (response bytes,
new store, remaining connection input), connection termination on a failed
body read (`fatal`), or a run-time panic (`crash`). -/
inductive Outcome : Type
  | reply (out : Str) (st : Store) (rest : Str)
  | fatal
  | crash
deriving DecidableEq, Repr

/-- Response `ERR usage: PUT file length\nREADY\n`. -/
def errPutUsage : Str := bytesOf ("ERR usage: PUT file length\nREADY\n")

/-- Response `ERR usage: GET file [revision]\nREADY\n`. -/
def errGetUsage : Str := bytesOf ("ERR usage: GET file [revision]\nREADY\n")

/-- Response `ERR usage: LIST dir\nREADY\n`. -/
def errListUsage : Str := bytesOf ("ERR usage: LIST dir\nREADY\n")

/-- Response `ERR illegal file name\nREADY\n`. -/
def errIllegalName : Str := bytesOf ("ERR illegal file name\nREADY\n")

/-- Response `ERR invalid length\nREADY\n`. -/
def errInvalidLength : Str := bytesOf ("ERR invalid length\nREADY\n")

/-- Response `ERR text files only\nREADY\n`. -/
def errTextOnly : Str := bytesOf ("ERR text files only\nREADY\n")

/-- Response `ERR no such file\nREADY\n`. -/
def errNoFile : Str := bytesOf ("ERR no such file\nREADY\n")

/-- Response `ERR no such revision\nREADY\n`. -/
def errNoRev : Str := bytesOf ("ERR no such revision\nREADY\n")

/-- Response `OK r<id>\nREADY\n` confirming a PUT. -/
def okPutReply (revID : Nat) : Str :=
  bytesOf ("OK r") ++ natToDec revID ++ bytesOf ("\nREADY\n")

/-- Response to a successful GET: `OK <len>\n`, the raw bytes, `READY\n`. -/
def okGetReply (data : Str) : Str :=
  bytesOf ("OK ") ++ natToDec data.length ++ [10] ++ data ++ bytesOf ("READY\n")

/-- One projected LIST entry for a stored key (server.go lines 277-297):
`none` when the key is not under the prefix; a `name/ DIR` entry when the
relative path still contains a slash; otherwise the file entry with its
revision count. -/
def entryFor (pre key : Str) (revCount : Nat) : Option (Str × Str) :=
  if pre <+: key then
    if 47 ∈ key.drop pre.length then
      some ((key.drop pre.length).takeWhile (fun b => b ≠ 47) ++ [47], bytesOf ("DIR"))
    else
      some (key.drop pre.length, [114] ++ natToDec revCount)
  else none

/-- One iteration of the LIST loop body: write the key's projected entry
(if any) into the `entries` map. -/
def entriesStep (pre : Str) (m : List (Str × Str)) (kv : Str × List Str) :
    List (Str × Str) :=
  match entryFor pre kv.1 kv.2.length with
  | some (name, meta) => setAssoc m name meta
  | none => m

/-- The `entries` map of the LIST loop (server.go lines 271-298), built by
iterating over the store and writing each key's projected entry. -/
def buildEntries (st : Store) (pre : Str) : List (Str × Str) :=
  st.foldl (entriesStep pre) []

/-- Byte-wise lexicographic strict order on byte strings, the order of Go
`sort.Strings` (Go string `<`). -/
def lexLt : Str → Str → Bool
  | [], [] => false
  | [], _ :: _ => true
  | _ :: _, [] => false
  | a :: s, b :: t => if a < b then true else if b < a then false else lexLt s t

/-- Non-strict byte-wise lexicographic order. -/
def lexLe (s t : Str) : Bool := ! lexLt t s

/-- Inserts an entry into a list sorted by name (ascending `lexLe`). -/
def insEntry (x : Str × Str) : List (Str × Str) → List (Str × Str)
  | [] => [x]
  | y :: ys => if lexLe x.1 y.1 then x :: y :: ys else y :: insEntry x ys

/-- Insertion sort of LIST entries by name.  Models `sort.Strings` over the
entry names: on duplicate-free names (which `buildEntries` guarantees) any
correct sort produces this unique ascending arrangement. -/
def sortEntries : List (Str × Str) → List (Str × Str)
  | [] => []
  | x :: xs => insEntry x (sortEntries xs)

/-- Rendering of the sorted LIST entries: one `<name> <metadata>\n` line
each (server.go lines 311-316). -/
def renderEntries (l : List (Str × Str)) : Str :=
  l.foldr (fun e acc => e.1 ++ [32] ++ e.2 ++ [10] ++ acc) []

/-- Full LIST response bytes: `OK <count>\n`, the entry lines, `READY\n`. -/
def okListReply (l : List (Str × Str)) : Str :=
  bytesOf ("OK ") ++ natToDec l.length ++ [10] ++ renderEntries l ++
    bytesOf ("READY\n")

/-- The LIST boundary prefix: the lower-cased directory token with a
trailing `/` appended when absent (server.go lines 262-265). -/
def listPre (dir : Str) : Str :=
  if (strToLower dir).getLast? = some 47 then strToLower dir
  else strToLower dir ++ [47]

/-- The sorted projection a LIST command emits for directory token `dir`
against store `st` (server.go lines 260-306). -/
def listProjection (st : Store) (dir : Str) : List (Str × Str) :=
  sortEntries (buildEntries st (listPre dir))

/-- The PUT branch of the command switch (server.go lines 91-176), given
the argument tokens after the verb and the pending connection input. -/
def execPut (st : Store) (args : List Str) (input : Str) : Outcome :=
  match args with
  | [filename, lenTok] =>
    if startsWithSlash filename = false then .reply errIllegalName st input
    else if validPathMatch filename = false then .reply errIllegalName st input
    else
      match atoi lenTok with
      | none => .reply errInvalidLength st input
      | some length =>
        if length < 0 then .crash
        else if input.length < length.toNat then .fatal
        else
          if utf8Valid (input.take length.toNat) = false then
            .reply errTextOnly st (input.drop length.toNat)
          else if textBytesOk (input.take length.toNat) = false then
            .reply errTextOnly st (input.drop length.toNat)
          else
            .reply (okPutReply (putStore st (strToLower filename) (input.take length.toNat)).2)
              (putStore st (strToLower filename) (input.take length.toNat)).1
              (input.drop length.toNat)
  | _ => .reply errPutUsage st input

/-- The revision-index selection of the GET branch (server.go lines
200-226): `none` when token parsing fails (reported as `no such revision`),
otherwise the 0-based index to bounds-check. -/
def getTargetIndex (revisions : List Str) (extraArgs : List Str) : Option Int :=
  match extraArgs with
  | revString :: _ =>
      if (strToLower revString).take 1 = [114] then
        match atoi (revString.drop 1) with
        | some revNum => some (revNum - 1)
        | none => none
      else none
  | [] => some ((revisions.length : Int) - 1)

/-- The GET branch of the command switch (server.go lines 178-251). -/
def execGet (st : Store) (args : List Str) (input : Str) : Outcome :=
  match args with
  | [] => .reply errGetUsage st input
  | filename :: extraArgs =>
    match getAssoc st (strToLower filename) with
    | none => .reply errNoFile st input
    | some revisions =>
      match getTargetIndex revisions extraArgs with
      | none => .reply errNoRev st input
      | some targetIndex =>
        if targetIndex < 0 ∨ (revisions.length : Int) ≤ targetIndex then
          .reply errNoRev st input
        else
          .reply (okGetReply (revisions.getD targetIndex.toNat [])) st input

/-- The LIST branch of the command switch (server.go lines 253-317). -/
def execList (st : Store) (args : List Str) (input : Str) : Outcome :=
  match args with
  | [dir] => .reply (okListReply (listProjection st dir)) st input
  | _ => .reply errListUsage st input

/-- One iteration of the `handleConnection` command loop (server.go lines
68-325) at the token level: `parts` is the whitespace-split command line,
`input` the connection bytes that follow it.  An empty line produces no
output and changes nothing. -/
def execCommand (st : Store) (parts : List Str) (input : Str) : Outcome :=
  match parts with
  | [] => .reply [] st input
  | first :: args =>
    if strToUpper first = bytesOf ("PUT") then execPut st args input
    else if strToUpper first = bytesOf ("GET") then execGet st args input
    else if strToUpper first = bytesOf ("LIST") then execList st args input
    else if strToUpper first = bytesOf ("HELP") then
      .reply (bytesOf ("OK usage: HELP|GET|PUT|LIST\nREADY\n")) st input
    else
      .reply (bytesOf ("ERR illegal method: ") ++ strToUpper first ++ bytesOf ("\nREADY\n"))
        st input

/-- Store states reachable from the empty initial store by processing any
sequence of command lines (each with arbitrary pending input). -/
inductive Reachable : Store → Prop
  | init : Reachable []
  | step (st : Store) (parts : List Str) (input out rest : Str) (st2 : Store) :
      Reachable st → execCommand st parts input = .reply out st2 rest →
      Reachable st2

theorem getAssoc_setAssoc_self {α : Type} (m : List (Str × α)) (k : Str) (v : α) :
    getAssoc (setAssoc m k v) k = some v := by
  induction m with
  | nil => simp [getAssoc, setAssoc]
  | cons kv rest ih =>
      obtain ⟨k', w⟩ := kv
      by_cases h : k' = k
      · simp [getAssoc, setAssoc, h]
      · simp [getAssoc, setAssoc, h, ih]

theorem mem_setAssoc {α : Type} (m : List (Str × α)) (k : Str) (v : α) (e : Str × α) :
    e ∈ setAssoc m k v → e ∈ m ∨ e = (k, v) := by
  induction m with
  | nil => simp [setAssoc]
  | cons kv rest ih =>
      obtain ⟨k0, w⟩ := kv
      by_cases h0 : k0 = k
      · subst h0
        simp only [setAssoc, if_true, List.mem_cons]
        tauto
      · simp only [setAssoc, if_neg h0, List.mem_cons]
        intro hh
        rcases hh with hh | hh
        · tauto
        · rcases ih hh with h1 | h1 <;> tauto

theorem getAssoc_setAssoc_ne {α : Type} (m : List (Str × α)) (k k' : Str) (v : α)
    (h : k' ≠ k) : getAssoc (setAssoc m k v) k' = getAssoc m k' := by
  have hne : ¬ (k = k') := fun hh => h hh.symm
  induction m with
  | nil => simp [getAssoc, setAssoc, hne]
  | cons kv rest ih =>
      obtain ⟨k0, w⟩ := kv
      by_cases h0 : k0 = k
      · subst h0
        simp [getAssoc, setAssoc, hne]
      · by_cases h1 : k0 = k'
        · subst h1
          simp [getAssoc, setAssoc, h0, hne, Ne.symm h0]
        · simp [getAssoc, setAssoc, h0, h1, ih]

theorem getAssoc_mem {α : Type} (m : List (Str × α)) (k : Str) (v : α)
    (h : getAssoc m k = some v) : (k, v) ∈ m := by
  induction m with
  | nil => simp [getAssoc] at h
  | cons kv rest ih =>
      obtain ⟨k0, w⟩ := kv
      by_cases h0 : k0 = k
      · subst h0
        simp only [getAssoc, if_true, Option.some.injEq] at h
        cases h
        exact List.mem_cons_self _ _
      · rw [getAssoc, if_neg h0] at h
        exact List.mem_cons_of_mem _ (ih h)

theorem execCommand_put (st : Store) (args : List Str) (input : Str) :
    execCommand st (bytesOf ("PUT") :: args) input = execPut st args input := rfl

theorem execCommand_get (st : Store) (args : List Str) (input : Str) :
    execCommand st (bytesOf ("GET") :: args) input = execGet st args input := rfl

theorem execCommand_list (st : Store) (args : List Str) (input : Str) :
    execCommand st (bytesOf ("LIST") :: args) input = execList st args input := rfl

theorem validPathMatch_eq_false_of_bad_byte (p : Str) (b : Nat) (hb : b ∈ p)
    (h : isPathByte b = false) : validPathMatch p = false := by
  cases hv : validPathMatch p
  · rfl
  · exfalso
    have hall : ∀ x ∈ p, isPathByte x = true := by
      have := hv
      simp only [validPathMatch, Bool.and_eq_true, List.all_eq_true] at this
      exact this.2
    rw [hall b hb] at h
    simp at h

/-- C1: the claim says a length token that fails to parse as a NON-NEGATIVE
decimal integer (such as `-5`) yields `ERR invalid length`.  In the code,
`strconv.Atoi` happily parses `"-5"` to `-5` (first conjunct), so the
`invalid length` branch is not taken; execution reaches
`make([]byte, -5)`, which panics at run time and crashes the process
instead of replying. -/
theorem c1_negative_length_crashes :
    atoi (bytesOf ("-5")) = some (-5) ∧
    ∀ (st : Store) (input : Str),
      execCommand st [bytesOf ("PUT"), bytesOf ("/f"), bytesOf ("-5")] input =
        Outcome.crash := by
  constructor
  · decide
  · intro st input
    rfl

/-- C6: a PUT whose path does not begin with `/`, or contains a byte
outside `[A-Za-z0-9/._-]`, is answered with `ERR illegal file name` and
`READY`; the connection stays alive (a normal reply outcome), the store is
unchanged, and no payload byte is consumed (the pending input is returned
untouched). -/
theorem c6_illegal_name_rejected (st : Store) (p lenTok input : Str)
    (h : startsWithSlash p = false ∨ ∃ b ∈ p, isPathByte b = false) :
    execCommand st [bytesOf ("PUT"), p, lenTok] input =
      .reply errIllegalName st input := by
  rw [execCommand_put]
  rcases h with h | ⟨b, hb, hbad⟩
  · simp [execPut, h]
  · have hv : validPathMatch p = false :=
      validPathMatch_eq_false_of_bad_byte p b hb hbad
    cases hs : startsWithSlash p
    · simp [execPut, hs]
    · simp [execPut, hs, hv]

theorem c6_illegal_name_rejected_witness :
    (startsWithSlash (bytesOf ("bad")) = false ∨
      ∃ b ∈ bytesOf ("bad"), isPathByte b = false) ∧
    execCommand [] [bytesOf ("PUT"), bytesOf ("bad"), bytesOf ("1")] (bytesOf ("A")) =
      .reply errIllegalName [] (bytesOf ("A")) :=
  ⟨Or.inl (by decide),
    c6_illegal_name_rejected [] (bytesOf ("bad")) (bytesOf ("1")) (bytesOf ("A"))
      (Or.inl (by decide))⟩

/-- C10: a PUT path ending in `/` (here `PUT /a/`) stores a key equal to
the later LIST prefix; `LIST /a` then projects that key to an entry whose
display name is the empty relative path, emitted as the line ` r1`
(a leading space, then the metadata). -/
theorem c10_empty_display_name :
    execCommand [] [bytesOf ("PUT"), bytesOf ("/a/"), bytesOf ("1")] (bytesOf ("A")) =
      .reply (bytesOf ("OK r1\nREADY\n")) [(bytesOf ("/a/"), [bytesOf ("A")])] [] ∧
    execCommand [(bytesOf ("/a/"), [bytesOf ("A")])] [bytesOf ("LIST"), bytesOf ("/a")] [] =
      .reply (bytesOf ("OK 1\n r1\nREADY\n")) [(bytesOf ("/a/"), [bytesOf ("A")])] [] := by
  constructor
  · decide
  · decide

/-- C2: the PUT store step deduplicates exactly against the tail revision:
if the tail equals the payload the store is untouched and the returned id
is the current count; otherwise (in particular when the payload matches an
EARLIER, non-tail revision) the payload is appended, the id is the new
count, and no other key changes. -/
theorem c2_put_tail_dedup (st : Store) (k b : Str) :
    (((getAssoc st k).getD []).getLast? = some b →
        putStore st k b = (st, ((getAssoc st k).getD []).length)) ∧
    (((getAssoc st k).getD []).getLast? ≠ some b →
        (putStore st k b).2 = ((getAssoc st k).getD []).length + 1 ∧
        getAssoc (putStore st k b).1 k = some (((getAssoc st k).getD []) ++ [b]) ∧
        ∀ k', k' ≠ k → getAssoc (putStore st k b).1 k' = getAssoc st k') := by
  constructor
  · intro h
    simp [putStore, h]
  · intro h
    refine ⟨?_, ?_, ?_⟩
    · simp [putStore, h]
    · simp [putStore, h, getAssoc_setAssoc_self]
    · intro k' hk
      simp [putStore, h, getAssoc_setAssoc_ne _ _ _ _ hk]

theorem c2_put_tail_dedup_witness :
    putStore [(bytesOf ("/x"), [bytesOf ("foo")])] (bytesOf ("/x")) (bytesOf ("foo")) =
      ([(bytesOf ("/x"), [bytesOf ("foo")])], 1) ∧
    (putStore [(bytesOf ("/x"), [bytesOf ("foo"), bytesOf ("bar")])] (bytesOf ("/x"))
        (bytesOf ("foo"))).2 = 3 :=
  ⟨(c2_put_tail_dedup _ _ _).1 (by decide),
    ((c2_put_tail_dedup _ _ _).2 (by decide)).1⟩

theorem textBytesOk_iff (s : Str) :
    textBytesOk s = true ↔ ∀ b ∈ s, (b < 32 → b = 9 ∨ b = 10 ∨ b = 13) ∧ b ≠ 127 := by
  simp only [textBytesOk, List.all_eq_true, textByteOk, decide_eq_true_eq]
  constructor
  · intro h b hb
    have := h b hb
    omega
  · intro h b hb
    have := h b hb
    omega

/-- C5: once the declared payload is read, it is accepted (stored via the
PUT store step) iff it is valid UTF-8 and no byte is a control character
other than tab, LF, CR, nor DEL (0x7F); otherwise the reply is
`ERR text files only` + `READY` and the store is completely unchanged,
with the payload bytes consumed from the input. -/
theorem c5_text_validation (st : Store) (p lenTok input : Str) (L : Int)
    (hslash : startsWithSlash p = true) (hvalid : validPathMatch p = true)
    (htok : atoi lenTok = some L) (hL : 0 ≤ L) (hread : L.toNat ≤ input.length) :
    ((utf8Valid (input.take L.toNat) = true ∧
        ∀ b ∈ input.take L.toNat, (b < 32 → b = 9 ∨ b = 10 ∨ b = 13) ∧ b ≠ 127) →
      execCommand st [bytesOf ("PUT"), p, lenTok] input =
        .reply (okPutReply (putStore st (strToLower p) (input.take L.toNat)).2)
          (putStore st (strToLower p) (input.take L.toNat)).1 (input.drop L.toNat)) ∧
    (¬ (utf8Valid (input.take L.toNat) = true ∧
        ∀ b ∈ input.take L.toNat, (b < 32 → b = 9 ∨ b = 10 ∨ b = 13) ∧ b ≠ 127) →
      execCommand st [bytesOf ("PUT"), p, lenTok] input =
        .reply errTextOnly st (input.drop L.toNat)) := by
  have h1 : ¬ (L < 0) := by omega
  have h2 : ¬ (input.length < L.toNat) := by omega
  rw [execCommand_put]
  constructor
  · rintro ⟨hu, hc⟩
    have hc' : textBytesOk (input.take L.toNat) = true := (textBytesOk_iff _).mpr hc
    simp [execPut, hslash, hvalid, htok, h1, h2, hu, hc']
  · intro hn
    by_cases hu : utf8Valid (input.take L.toNat) = true
    · have hcF : textBytesOk (input.take L.toNat) = false := by
        cases hcb : textBytesOk (input.take L.toNat)
        · rfl
        · exact absurd ⟨hu, (textBytesOk_iff _).mp hcb⟩ hn
      simp [execPut, hslash, hvalid, htok, h1, h2, hu, hcF]
    · have huF : utf8Valid (input.take L.toNat) = false := by
        cases hub : utf8Valid (input.take L.toNat)
        · rfl
        · exact absurd hub hu
      simp [execPut, hslash, hvalid, htok, h1, h2, huF]

theorem c5_text_validation_witness :
    execCommand [] [bytesOf ("PUT"), bytesOf ("/b.dat"), bytesOf ("4")]
        [222, 173, 190, 239] =
      .reply errTextOnly [] [] :=
  (c5_text_validation [] (bytesOf ("/b.dat")) (bytesOf ("4")) [222, 173, 190, 239] 4
      (by decide) (by decide) (by decide) (by decide) (by decide)).2
    (fun h => absurd h.1 (by decide))

theorem execPut_accepts (st : Store) (p lenTok body : Str)
    (hslash : startsWithSlash p = true) (hvalid : validPathMatch p = true)
    (htok : atoi lenTok = some (body.length : Int))
    (hutf : utf8Valid body = true) (hctl : textBytesOk body = true) :
    execCommand st [bytesOf ("PUT"), p, lenTok] body =
      .reply (okPutReply (putStore st (strToLower p) body).2)
        (putStore st (strToLower p) body).1 [] := by
  rw [execCommand_put]
  have h1 : ¬ ((body.length : Int) < 0) := by omega
  have ht : ((body.length : Int)).toNat = body.length := by omega
  have h2 : ¬ (body.length < ((body.length : Int)).toNat) := by omega
  simp [execPut, hslash, hvalid, htok, h1, h2, ht, hutf, hctl]

theorem putStore_new (st : Store) (k b : Str) (h : getAssoc st k = none) :
    putStore st k b = (setAssoc st k [b], 1) := by
  simp [putStore, h]

theorem putStore_append (st : Store) (k b2 : Str) (revs : List Str)
    (h : getAssoc st k = some revs) (hne : revs.getLast? ≠ some b2) :
    putStore st k b2 = (setAssoc st k (revs ++ [b2]), revs.length + 1) := by
  simp [putStore, h, hne]

theorem execGet_latest (st : Store) (p input : Str) (revs : List Str)
    (h : getAssoc st (strToLower p) = some revs) (hne : revs ≠ []) :
    execCommand st [bytesOf ("GET"), p] input =
      .reply (okGetReply (revs.getLast?.getD [])) st input := by
  rw [execCommand_get]
  have hlen : 1 ≤ revs.length := List.length_pos.mpr hne
  have hb : ¬ (((revs.length : Int) - 1) < 0 ∨ (revs.length : Int) ≤ (revs.length : Int) - 1) := by
    omega
  have hidx : (((revs.length : Int) - 1)).toNat = revs.length - 1 := by omega
  have hlast : revs.getD (revs.length - 1) [] = revs.getLast?.getD [] := by
    rw [List.getD_eq_getElem?_getD, List.getLast?_eq_getElem?]
  simp only [execGet, h, getTargetIndex, hb, if_false, hidx, hlast]

theorem execGet_token_eval (st : Store) (p t input : Str) (revs : List Str) (n : Int)
    (h : getAssoc st (strToLower p) = some revs)
    (hr : (strToLower t).take 1 = [114])
    (hn : atoi (t.drop 1) = some n)
    (hlo : 1 ≤ n) (hhi : n ≤ (revs.length : Int)) :
    execCommand st [bytesOf ("GET"), p, t] input =
      .reply (okGetReply (revs.getD (n - 1).toNat [])) st input := by
  rw [execCommand_get]
  have hb : ¬ (n < 1 ∨ (revs.length : Int) ≤ n - 1) := by omega
  have hn' : atoi t.tail = some n := by rwa [List.drop_one] at hn
  simp [execGet, h, getTargetIndex, hr, hn, hn', hb]

theorem execGet_token_err (st : Store) (p t input : Str) (revs : List Str)
    (h : getAssoc st (strToLower p) = some revs)
    (hbad : getTargetIndex revs [t] = none ∨
      ∃ n : Int, getTargetIndex revs [t] = some n ∧ (n < 0 ∨ (revs.length : Int) ≤ n)) :
    execCommand st [bytesOf ("GET"), p, t] input = .reply errNoRev st input := by
  rw [execCommand_get]
  rcases hbad with hb | ⟨n, hb, hrange⟩
  · simp [execGet, h, hb]
  · simp [execGet, h, hb, hrange]

/-- C3: round-trip laws.  Starting from a store with no file at the
normalized key of `p`: a PUT of text payload `b` followed by a bare GET
returns exactly `b`; and a PUT of `b1` followed by a PUT of `b2 ≠ b1`
leaves a store where `GET p r1` returns `b1` and a bare `GET p` returns
`b2`. -/
theorem c3_round_trip (st : Store) (p tb t1 t2 b b1 b2 : Str)
    (hslash : startsWithSlash p = true) (hvalid : validPathMatch p = true)
    (hnone : getAssoc st (strToLower p) = none)
    (htb : atoi tb = some (b.length : Int))
    (hutf : utf8Valid b = true) (hctl : textBytesOk b = true)
    (ht1 : atoi t1 = some (b1.length : Int))
    (hutf1 : utf8Valid b1 = true) (hctl1 : textBytesOk b1 = true)
    (ht2 : atoi t2 = some (b2.length : Int))
    (hutf2 : utf8Valid b2 = true) (hctl2 : textBytesOk b2 = true)
    (hne : b1 ≠ b2) :
    (execCommand st [bytesOf ("PUT"), p, tb] b =
        .reply (okPutReply 1) (setAssoc st (strToLower p) [b]) [] ∧
      execCommand (setAssoc st (strToLower p) [b]) [bytesOf ("GET"), p] [] =
        .reply (okGetReply b) (setAssoc st (strToLower p) [b]) []) ∧
    (execCommand st [bytesOf ("PUT"), p, t1] b1 =
        .reply (okPutReply 1) (setAssoc st (strToLower p) [b1]) [] ∧
      execCommand (setAssoc st (strToLower p) [b1]) [bytesOf ("PUT"), p, t2] b2 =
        .reply (okPutReply 2)
          (setAssoc (setAssoc st (strToLower p) [b1]) (strToLower p) [b1, b2]) [] ∧
      execCommand (setAssoc (setAssoc st (strToLower p) [b1]) (strToLower p) [b1, b2])
          [bytesOf ("GET"), p, bytesOf ("r1")] [] =
        .reply (okGetReply b1)
          (setAssoc (setAssoc st (strToLower p) [b1]) (strToLower p) [b1, b2]) [] ∧
      execCommand (setAssoc (setAssoc st (strToLower p) [b1]) (strToLower p) [b1, b2])
          [bytesOf ("GET"), p] [] =
        .reply (okGetReply b2)
          (setAssoc (setAssoc st (strToLower p) [b1]) (strToLower p) [b1, b2]) []) := by
  have hget1 : getAssoc (setAssoc st (strToLower p) [b]) (strToLower p) = some [b] :=
    getAssoc_setAssoc_self _ _ _
  have hgetb1 : getAssoc (setAssoc st (strToLower p) [b1]) (strToLower p) = some [b1] :=
    getAssoc_setAssoc_self _ _ _
  have hget2 :
      getAssoc (setAssoc (setAssoc st (strToLower p) [b1]) (strToLower p) [b1, b2])
        (strToLower p) = some [b1, b2] :=
    getAssoc_setAssoc_self _ _ _
  refine ⟨⟨?_, ?_⟩, ?_, ?_, ?_, ?_⟩
  · have := execPut_accepts st p tb b hslash hvalid htb hutf hctl
    rwa [putStore_new st _ b hnone] at this
  · have := execGet_latest (setAssoc st (strToLower p) [b]) p [] [b] hget1 (by simp)
    simpa using this
  · have := execPut_accepts st p t1 b1 hslash hvalid ht1 hutf1 hctl1
    rwa [putStore_new st _ b1 hnone] at this
  · have := execPut_accepts (setAssoc st (strToLower p) [b1]) p t2 b2 hslash hvalid ht2
      hutf2 hctl2
    rwa [putStore_append _ _ b2 [b1] hgetb1 (by simpa using fun hh => hne hh)] at this
  · have := execGet_token_eval
      (setAssoc (setAssoc st (strToLower p) [b1]) (strToLower p) [b1, b2]) p
      (bytesOf ("r1")) [] [b1, b2] 1 hget2 (by decide) (by decide) (by norm_num) (by simp)
    simpa using this
  · have := execGet_latest
      (setAssoc (setAssoc st (strToLower p) [b1]) (strToLower p) [b1, b2]) p [] [b1, b2]
      hget2 (by simp)
    simpa using this

theorem c3_round_trip_witness :
    execCommand [] [bytesOf ("PUT"), bytesOf ("/k"), bytesOf ("1")] (bytesOf ("A")) =
      .reply (okPutReply 1) (setAssoc [] (strToLower (bytesOf ("/k"))) [bytesOf ("A")]) [] ∧
    execCommand (setAssoc [] (strToLower (bytesOf ("/k"))) [bytesOf ("A")])
        [bytesOf ("GET"), bytesOf ("/k")] [] =
      .reply (okGetReply (bytesOf ("A")))
        (setAssoc [] (strToLower (bytesOf ("/k"))) [bytesOf ("A")]) [] :=
  (c3_round_trip [] (bytesOf ("/k")) (bytesOf ("1")) (bytesOf ("1")) (bytesOf ("1"))
      (bytesOf ("A")) (bytesOf ("A")) (bytesOf ("B"))
      (by decide) (by decide) (by decide) (by decide) (by decide) (by decide)
      (by decide) (by decide) (by decide) (by decide) (by decide) (by decide)
      (by decide)).1

theorem toLowerByte_eq_r (b : Nat) : toLowerByte b = 114 ↔ b = 114 ∨ b = 82 := by
  unfold toLowerByte
  split <;> omega

theorem lower_head_r (t : Str) :
    (strToLower t).take 1 = [114] ↔ (t.head? = some 114 ∨ t.head? = some 82) := by
  cases t with
  | nil => simp [strToLower]
  | cons b rest =>
      simp only [strToLower, List.map_cons, List.take_cons, List.take_zero, List.head?,
        Option.some.injEq]
      constructor
      · intro hh
        have : toLowerByte b = 114 := by simpa using hh
        rcases (toLowerByte_eq_r b).mp this with h1 | h1
        · exact Or.inl h1
        · exact Or.inr h1
      · intro hh
        have : toLowerByte b = 114 := (toLowerByte_eq_r b).mpr (by tauto)
        simpa using this

/-- C4 (amended): for a GET with a revision token `t` on an existing file,
the bytes of revision `n` are returned iff the first byte of `t` is `r` or
`R` and the remaining bytes parse via `strconv.Atoi` — which accepts an
optional leading `+` or `-` sign — as an integer `n` with
`1 ≤ n ≤ revision count`; every other token, and every parsed value out of
that range, is answered `ERR no such revision`; with no token the tail
revision is returned. -/
theorem c4_revision_token (st : Store) (p t input : Str) (revs : List Str)
    (h : getAssoc st (strToLower p) = some revs) :
    (∀ n : Int, (t.head? = some 114 ∨ t.head? = some 82) → atoi (t.drop 1) = some n →
        1 ≤ n → n ≤ (revs.length : Int) →
        execCommand st [bytesOf ("GET"), p, t] input =
          .reply (okGetReply (revs.getD (n - 1).toNat [])) st input) ∧
    ((¬ (t.head? = some 114 ∨ t.head? = some 82)) ∨ atoi (t.drop 1) = none ∨
        (∃ n : Int, atoi (t.drop 1) = some n ∧ (n < 1 ∨ (revs.length : Int) < n)) →
        execCommand st [bytesOf ("GET"), p, t] input = .reply errNoRev st input) ∧
    (∀ tl, revs.getLast? = some tl →
        execCommand st [bytesOf ("GET"), p] input = .reply (okGetReply tl) st input) := by
  refine ⟨?_, ?_, ?_⟩
  · intro n hhead hn hlo hhi
    exact execGet_token_eval st p t input revs n h ((lower_head_r t).mpr hhead) hn hlo hhi
  · intro hbad
    apply execGet_token_err st p t input revs h
    by_cases hhead : (strToLower t).take 1 = [114]
    · rcases hbad with hb | hb | ⟨n, hn, hrange⟩
      · exact absurd ((lower_head_r t).mp hhead) hb
      · left
        have hb' : atoi t.tail = none := by rwa [List.drop_one] at hb
        simp [getTargetIndex, hhead, hb']
      · right
        refine ⟨n - 1, ?_, by omega⟩
        have hn' : atoi t.tail = some n := by rwa [List.drop_one] at hn
        simp [getTargetIndex, hhead, hn']
    · left
      simp [getTargetIndex, hhead]
  · intro tl htl
    have hne : revs ≠ [] := by
      intro hh
      rw [hh] at htl
      simp at htl
    have := execGet_latest st p input revs h hne
    rw [htl] at this
    simpa using this

theorem c4_revision_token_witness :
    execCommand [(bytesOf ("/x"), [bytesOf ("A"), bytesOf ("B")])]
        [bytesOf ("GET"), bytesOf ("/x"), bytesOf ("r2")] [] =
      .reply (okGetReply (bytesOf ("B")))
        [(bytesOf ("/x"), [bytesOf ("A"), bytesOf ("B")])] [] := by
  have := (c4_revision_token [(bytesOf ("/x"), [bytesOf ("A"), bytesOf ("B")])]
      (bytesOf ("/x")) (bytesOf ("r2")) [] [bytesOf ("A"), bytesOf ("B")]
      (by decide)).1 2 (Or.inl (by decide)) (by decide) (by decide) (by decide)
  simpa using this

/-- C4 as literally stated is false: the token `r+2` has a signed remainder
(`+2` is not a plain digit string, first conjunct), which the claim places
among the inputs answered `ERR no such revision`; the code instead parses
`+2` with `strconv.Atoi` and serves revision 2 of the file. -/
theorem c4_revision_token_counterexample :
    parseDigits (bytesOf ("+2")) = none ∧
    execCommand [(bytesOf ("/x"), [bytesOf ("A"), bytesOf ("B")])]
        [bytesOf ("GET"), bytesOf ("/x"), bytesOf ("r+2")] [] =
      .reply (okGetReply (bytesOf ("B")))
        [(bytesOf ("/x"), [bytesOf ("A"), bytesOf ("B")])] [] ∧
    okGetReply (bytesOf ("B")) ≠ errNoRev := by
  refine ⟨by decide, by decide, by decide⟩

theorem isPathByte_toLowerByte (b : Nat) : isPathByte (toLowerByte b) = isPathByte b := by
  unfold toLowerByte
  by_cases hb : 65 ≤ b ∧ b ≤ 90
  · rw [if_pos hb]
    unfold isPathByte
    apply decide_eq_decide.mpr
    omega
  · rw [if_neg hb]

theorem all_isPathByte_lower (s : Str) :
    (strToLower s).all isPathByte = s.all isPathByte := by
  induction s with
  | nil => rfl
  | cons b rest ih =>
      have ih' : (List.map toLowerByte rest).all isPathByte = rest.all isPathByte := ih
      simp only [strToLower, List.map_cons, List.all_cons]
      rw [isPathByte_toLowerByte, ih']

theorem validPathMatch_congr (p q : Str) (h : strToLower p = strToLower q) :
    validPathMatch p = validPathMatch q := by
  have hlen : p.length = q.length := by
    have := congrArg List.length h
    simpa [strToLower] using this
  have hall : p.all isPathByte = q.all isPathByte := by
    rw [← all_isPathByte_lower p, ← all_isPathByte_lower q, h]
  unfold validPathMatch
  rw [hall]
  congr 1
  apply decide_eq_decide.mpr
  constructor
  · intro hp hq
    exact hp (List.length_eq_zero.mp (by rw [hlen, hq]; rfl))
  · intro hq hp
    exact hq (List.length_eq_zero.mp (by rw [← hlen, hp]; rfl))

theorem toLowerByte_eq_slash (b : Nat) : toLowerByte b = 47 ↔ b = 47 := by
  unfold toLowerByte
  split <;> omega

theorem startsWithSlash_congr (p q : Str) (h : strToLower p = strToLower q) :
    startsWithSlash p = startsWithSlash q := by
  cases p with
  | nil =>
      cases q with
      | nil => rfl
      | cons b rest => simp [strToLower] at h
  | cons a resta =>
      cases q with
      | nil => simp [strToLower] at h
      | cons b restb =>
          simp only [strToLower, List.map_cons, List.cons.injEq] at h
          simp only [startsWithSlash]
          apply decide_eq_decide.mpr
          rw [← toLowerByte_eq_slash a, ← toLowerByte_eq_slash b, h.1]

/-- C8: the key normalization is byte-wise lower-casing, so only ASCII
bytes `A`-`Z` change (first conjunct, shifted by 32); consequently two
paths with the same lower-casing — in particular any two case-permutations
of each other — are treated identically by PUT, GET (with or without extra
tokens) and LIST. -/
theorem c8_case_insensitive_paths (p q : Str) (h : strToLower p = strToLower q) :
    (∀ b, toLowerByte b = b ∨ (65 ≤ b ∧ b ≤ 90 ∧ toLowerByte b = b + 32)) ∧
    (∀ (st : Store) (lenTok input : Str),
      execCommand st [bytesOf ("PUT"), p, lenTok] input =
        execCommand st [bytesOf ("PUT"), q, lenTok] input) ∧
    (∀ (st : Store) (extra : List Str) (input : Str),
      execCommand st (bytesOf ("GET") :: p :: extra) input =
        execCommand st (bytesOf ("GET") :: q :: extra) input) ∧
    (∀ (st : Store) (input : Str),
      execCommand st [bytesOf ("LIST"), p] input =
        execCommand st [bytesOf ("LIST"), q] input) := by
  refine ⟨?_, ?_, ?_, ?_⟩
  · intro b
    unfold toLowerByte
    by_cases hb : 65 ≤ b ∧ b ≤ 90
    · right
      exact ⟨hb.1, hb.2, if_pos hb⟩
    · left
      exact if_neg hb
  · intro st lenTok input
    rw [execCommand_put, execCommand_put]
    simp only [execPut]
    rw [startsWithSlash_congr p q h, validPathMatch_congr p q h, h]
  · intro st extra input
    rw [execCommand_get, execCommand_get]
    simp only [execGet]
    rw [h]
  · intro st input
    rw [execCommand_list, execCommand_list]
    have hpre : listPre p = listPre q := by
      unfold listPre
      rw [h]
    simp only [execList, listProjection]
    rw [hpre]

theorem c8_case_insensitive_paths_witness :
    execCommand [] [bytesOf ("PUT"), bytesOf ("/A"), bytesOf ("1")] (bytesOf ("x")) =
      execCommand [] [bytesOf ("PUT"), bytesOf ("/a"), bytesOf ("1")] (bytesOf ("x")) :=
  (c8_case_insensitive_paths (bytesOf ("/A")) (bytesOf ("/a")) (by decide)).2.1 []
    (bytesOf ("1")) (bytesOf ("x"))

theorem execPut_store_shape (st : Store) (args : List Str) (input out rest : Str)
    (st2 : Store) (h : execPut st args input = .reply out st2 rest) :
    st2 = st ∨ ∃ k d, st2 = (putStore st k d).1 := by
  unfold execPut at h
  split at h
  · split at h
    · cases h; exact Or.inl rfl
    · split at h
      · cases h; exact Or.inl rfl
      · split at h
        · cases h; exact Or.inl rfl
        · split at h
          · cases h
          · split at h
            · cases h
            · split at h
              · cases h; exact Or.inl rfl
              · split at h
                · cases h; exact Or.inl rfl
                · cases h; exact Or.inr ⟨_, _, rfl⟩
  · cases h; exact Or.inl rfl

theorem execGet_store_shape (st : Store) (args : List Str) (input out rest : Str)
    (st2 : Store) (h : execGet st args input = .reply out st2 rest) : st2 = st := by
  unfold execGet at h
  split at h
  · cases h; rfl
  · split at h
    · cases h; rfl
    · split at h
      · cases h; rfl
      · split at h
        · cases h; rfl
        · cases h; rfl

theorem execList_store_shape (st : Store) (args : List Str) (input out rest : Str)
    (st2 : Store) (h : execList st args input = .reply out st2 rest) : st2 = st := by
  unfold execList at h
  split at h
  · cases h; rfl
  · cases h; rfl

theorem execCommand_store_shape (st : Store) (parts : List Str) (input out rest : Str)
    (st2 : Store) (h : execCommand st parts input = .reply out st2 rest) :
    st2 = st ∨ ∃ k d, st2 = (putStore st k d).1 := by
  unfold execCommand at h
  split at h
  · cases h; exact Or.inl rfl
  · split at h
    · exact execPut_store_shape _ _ _ _ _ _ h
    · split at h
      · exact Or.inl (execGet_store_shape _ _ _ _ _ _ h)
      · split at h
        · exact Or.inl (execList_store_shape _ _ _ _ _ _ h)
        · split at h
          · cases h; exact Or.inl rfl
          · cases h; exact Or.inl rfl

theorem putStore_preserves_nonempty (st : Store) (k d : Str)
    (h : ∀ kv ∈ st, kv.2 ≠ []) :
    ∀ kv ∈ (putStore st k d).1, kv.2 ≠ [] := by
  intro kv hkv
  simp only [putStore] at hkv
  split at hkv
  · exact h kv hkv
  · rcases mem_setAssoc _ _ _ _ hkv with hm | he
    · exact h kv hm
    · subst he
      simp

/-- C9: in every store reachable by any command sequence, every present
key maps to a non-empty revision list, and consequently a bare GET (no
revision token) of a present key always succeeds with the tail revision —
it can never answer `ERR no such revision`. -/
theorem c9_nonempty_revision_lists (st : Store) (h : Reachable st) :
    (∀ kv ∈ st, kv.2 ≠ []) ∧
    (∀ (p input : Str) (revs : List Str), getAssoc st (strToLower p) = some revs →
      execCommand st [bytesOf ("GET"), p] input =
        .reply (okGetReply (revs.getLast?.getD [])) st input) := by
  have hinv : ∀ kv ∈ st, kv.2 ≠ [] := by
    induction h with
    | init => simp
    | step st parts input out rest st2 hr hexec ih =>
        rcases execCommand_store_shape _ _ _ _ _ _ hexec with h1 | ⟨k, d, h1⟩
        · exact h1 ▸ ih
        · exact h1 ▸ putStore_preserves_nonempty st k d ih
  refine ⟨hinv, ?_⟩
  intro p input revs hrevs
  have hne : revs ≠ [] := hinv (strToLower p, revs) (getAssoc_mem _ _ _ hrevs)
  exact execGet_latest st p input revs hrevs hne

theorem c9_nonempty_revision_lists_witness :
    (∀ kv ∈ ([(bytesOf ("/a"), [bytesOf ("A")])] : Store), kv.2 ≠ []) ∧
    (∀ (p input : Str) (revs : List Str),
      getAssoc [(bytesOf ("/a"), [bytesOf ("A")])] (strToLower p) = some revs →
      execCommand [(bytesOf ("/a"), [bytesOf ("A")])] [bytesOf ("GET"), p] input =
        .reply (okGetReply (revs.getLast?.getD []))
          [(bytesOf ("/a"), [bytesOf ("A")])] input) :=
  c9_nonempty_revision_lists _
    (Reachable.step [] [bytesOf ("PUT"), bytesOf ("/a"), bytesOf ("1")] (bytesOf ("A"))
      (bytesOf ("OK r1\nREADY\n")) [] [(bytesOf ("/a"), [bytesOf ("A")])]
      Reachable.init (by decide))

theorem lexLt_irrefl : ∀ s : Str, lexLt s s = false
  | [] => rfl
  | a :: s => by
      simp only [lexLt, lt_self_iff_false, if_false]
      exact lexLt_irrefl s

theorem lexLt_conn : ∀ a b : Str, lexLt a b = false → lexLt b a = false → a = b
  | [], [], _, _ => rfl
  | [], _ :: _, h1, _ => by simp [lexLt] at h1
  | _ :: _, [], _, h2 => by simp [lexLt] at h2
  | a :: s, b :: t, h1, h2 => by
      simp only [lexLt] at h1 h2
      by_cases hab : a < b
      · simp [hab] at h1
      · by_cases hba : b < a
        · simp [hba] at h2
        · have heq : a = b := by omega
          subst heq
          have hs : s = t :=
            lexLt_conn s t (by simpa [hab] using h1) (by simpa [hba] using h2)
          rw [hs]

theorem lexLt_trans : ∀ a b c : Str, lexLt a b = true → lexLt b c = true →
    lexLt a c = true
  | [], [], _, h1, _ => by simp [lexLt] at h1
  | [], _ :: _, [], _, h2 => by simp [lexLt] at h2
  | [], _ :: _, _ :: _, _, _ => by simp [lexLt]
  | _ :: _, [], _, h1, _ => by simp [lexLt] at h1
  | _ :: _, _ :: _, [], _, h2 => by simp [lexLt] at h2
  | a :: s, b :: t, c :: u, h1, h2 => by
      simp only [lexLt] at h1 h2 ⊢
      by_cases hab : a < b
      · by_cases hbc : b < c
        · simp [show a < c by omega]
        · by_cases hcb : c < b
          · simp [hbc, hcb] at h2
          · have : b = c := by omega
            subst this
            simp [hab]
      · by_cases hba : b < a
        · simp [hab, hba] at h1
        · have : a = b := by omega
          subst this
          by_cases hbc : a < c
          · simp [hbc]
          · by_cases hcb : c < a
            · simp [hbc, hcb] at h2
            · have : a = c := by omega
              subst this
              simp only [lt_self_iff_false, if_false]
              exact lexLt_trans s t u (by simpa [hab] using h1) (by simpa [hbc] using h2)

theorem lexLt_asymm (a b : Str) (h : lexLt a b = true) : lexLt b a = false := by
  cases hx : lexLt b a
  · rfl
  · have := lexLt_trans a b a h hx
    rw [lexLt_irrefl] at this
    cases this

theorem lexLe_total (a b : Str) (h : lexLe a b = false) : lexLe b a = true := by
  unfold lexLe at *
  have h1 : lexLt b a = true := by
    cases hx : lexLt b a
    · rw [hx] at h
      simp at h
    · rfl
  simp [lexLt_asymm b a h1]

theorem lexLe_trans (a b c : Str) (h1 : lexLe a b = true) (h2 : lexLe b c = true) :
    lexLe a c = true := by
  unfold lexLe at *
  have hba : lexLt b a = false := by
    cases hx : lexLt b a
    · rfl
    · rw [hx] at h1
      simp at h1
  have hcb : lexLt c b = false := by
    cases hx : lexLt c b
    · rfl
    · rw [hx] at h2
      simp at h2
  cases hx : lexLt c a
  · simp
  · exfalso
    cases hy : lexLt a b
    · have hab : a = b := lexLt_conn a b hy hba
      subst hab
      rw [hx] at hcb
      cases hcb
    · have := lexLt_trans c a b hx hy
      rw [this] at hcb
      cases hcb

theorem lexLt_of_lexLe_ne (a b : Str) (hle : lexLe a b = true) (hne : a ≠ b) :
    lexLt a b = true := by
  cases hx : lexLt a b
  · exfalso
    have hba : lexLt b a = false := by
      unfold lexLe at hle
      cases hy : lexLt b a
      · rfl
      · rw [hy] at hle
        simp at hle
    exact hne (lexLt_conn a b hx hba)
  · rfl

theorem mem_insEntry (x y : Str × Str) (l : List (Str × Str)) :
    x ∈ insEntry y l ↔ x = y ∨ x ∈ l := by
  induction l with
  | nil => simp [insEntry]
  | cons z zs ih =>
      simp only [insEntry]
      split
      · simp [List.mem_cons]
      · simp only [List.mem_cons, ih]
        tauto

theorem perm_insEntry (y : Str × Str) (l : List (Str × Str)) :
    (insEntry y l).Perm (y :: l) := by
  induction l with
  | nil => simp [insEntry]
  | cons z zs ih =>
      simp only [insEntry]
      split
      · exact List.Perm.refl _
      · exact (ih.cons z).trans (List.Perm.swap y z zs)

theorem perm_sortEntries (l : List (Str × Str)) : (sortEntries l).Perm l := by
  induction l with
  | nil => simp [sortEntries]
  | cons x xs ih =>
      exact (perm_insEntry x (sortEntries xs)).trans (ih.cons x)

theorem pairwise_insEntry (y : Str × Str) (l : List (Str × Str))
    (hl : l.Pairwise (fun a b => lexLe a.1 b.1 = true)) :
    (insEntry y l).Pairwise (fun a b => lexLe a.1 b.1 = true) := by
  induction l with
  | nil => simp [insEntry]
  | cons z zs ih =>
      rcases List.pairwise_cons.mp hl with ⟨hz, hzs⟩
      by_cases hcond : lexLe y.1 z.1 = true
      · rw [show insEntry y (z :: zs) = y :: z :: zs by simp [insEntry, hcond]]
        refine List.pairwise_cons.mpr ⟨?_, hl⟩
        intro w hw
        rcases List.mem_cons.mp hw with h1 | h1
        · rw [h1]
          exact hcond
        · exact lexLe_trans _ _ _ hcond (hz w h1)
      · rw [show insEntry y (z :: zs) = z :: insEntry y zs by simp [insEntry, hcond]]
        refine List.pairwise_cons.mpr ⟨?_, ih hzs⟩
        intro w hw
        rcases (mem_insEntry w y zs).mp hw with h1 | h1
        · rw [h1]
          refine lexLe_total _ _ ?_
          cases hx : lexLe y.1 z.1
          · rfl
          · exact absurd hx hcond
        · exact hz w h1

theorem pairwise_sortEntries (l : List (Str × Str)) :
    (sortEntries l).Pairwise (fun a b => lexLe a.1 b.1 = true) := by
  induction l with
  | nil => simp [sortEntries]
  | cons x xs ih => exact pairwise_insEntry x (sortEntries xs) ih

theorem pairwise_lt_of_le_nodup (l : List (Str × Str))
    (hle : l.Pairwise (fun a b => lexLe a.1 b.1 = true))
    (hnd : (l.map Prod.fst).Nodup) :
    l.Pairwise (fun a b => lexLt a.1 b.1 = true) := by
  have hne : l.Pairwise (fun a b => a.1 ≠ b.1) := List.pairwise_map.mp hnd
  exact (hle.and hne).imp fun hab => lexLt_of_lexLe_ne _ _ hab.1 hab.2

theorem mem_setAssoc_self {α : Type} (m : List (Str × α)) (k : Str) (v : α) :
    (k, v) ∈ setAssoc m k v := by
  induction m with
  | nil => simp [setAssoc]
  | cons kv rest ih =>
      obtain ⟨k0, w⟩ := kv
      by_cases h0 : k0 = k
      · subst h0
        simp [setAssoc]
      · simp only [setAssoc, if_neg h0]
        exact List.mem_cons_of_mem _ ih

theorem mem_setAssoc_of_ne {α : Type} (m : List (Str × α)) (k : Str) (v : α)
    (e : Str × α) (he : e ∈ m) (hne : e.1 ≠ k) : e ∈ setAssoc m k v := by
  induction m with
  | nil => simp at he
  | cons kv rest ih =>
      obtain ⟨k0, w⟩ := kv
      by_cases h0 : k0 = k
      · subst h0
        simp only [setAssoc, if_true, List.mem_cons]
        rcases List.mem_cons.mp he with h1 | h1
        · exact absurd (by rw [h1]) hne
        · exact Or.inr h1
      · simp only [setAssoc, if_neg h0, List.mem_cons]
        rcases List.mem_cons.mp he with h1 | h1
        · exact Or.inl h1
        · exact Or.inr (ih h1)

theorem keys_setAssoc {α : Type} (m : List (Str × α)) (k : Str) (v : α) (x : Str)
    (h : x ∈ (setAssoc m k v).map Prod.fst) : x ∈ m.map Prod.fst ∨ x = k := by
  rcases List.mem_map.mp h with ⟨e, he, hx⟩
  rcases mem_setAssoc _ _ _ _ he with h1 | h1
  · exact Or.inl (List.mem_map.mpr ⟨e, h1, hx⟩)
  · subst h1
    exact Or.inr hx.symm

theorem keysNodup_setAssoc {α : Type} (m : List (Str × α)) (k : Str) (v : α)
    (h : (m.map Prod.fst).Nodup) : ((setAssoc m k v).map Prod.fst).Nodup := by
  induction m with
  | nil => simp [setAssoc]
  | cons kv rest ih =>
      obtain ⟨k0, w⟩ := kv
      simp only [List.map_cons, List.nodup_cons] at h
      by_cases h0 : k0 = k
      · subst h0
        simpa [setAssoc] using h
      · simp only [setAssoc, if_neg h0, List.map_cons, List.nodup_cons]
        refine ⟨?_, ih h.2⟩
        intro hmem
        rcases keys_setAssoc rest k v k0 hmem with h1 | h1
        · exact h.1 h1
        · exact h0 h1

theorem buildEntries_keys_nodup (st : Store) (pre : Str) :
    ((buildEntries st pre).map Prod.fst).Nodup := by
  have hgen : ∀ (l : List (Str × List Str)) (m : List (Str × Str)),
      (m.map Prod.fst).Nodup → ((l.foldl (entriesStep pre) m).map Prod.fst).Nodup := by
    intro l
    induction l with
    | nil => intro m hm; exact hm
    | cons kv rest ih =>
        intro m hm
        simp only [List.foldl_cons]
        apply ih
        unfold entriesStep
        split
        · next name meta heq => exact keysNodup_setAssoc m _ _ hm
        · exact hm
  exact hgen st [] (by simp)

theorem nodup_keys_value_unique {α : Type} (st : List (Str × α))
    (hnd : (st.map Prod.fst).Nodup) (k : Str) (a b : α)
    (ha : (k, a) ∈ st) (hb : (k, b) ∈ st) : a = b := by
  induction st with
  | nil => simp at ha
  | cons kv rest ih =>
      simp only [List.map_cons, List.nodup_cons] at hnd
      rcases List.mem_cons.mp ha with h1 | h1 <;> rcases List.mem_cons.mp hb with h2 | h2
      · rw [← h1] at h2
        exact (congrArg Prod.snd h2).symm
      · exfalso
        apply hnd.1
        rw [← h1]
        exact List.mem_map.mpr ⟨(k, b), h2, rfl⟩
      · exfalso
        apply hnd.1
        rw [← h2]
        exact List.mem_map.mpr ⟨(k, a), h1, rfl⟩
      · exact ih hnd.2 h1 h2

theorem entryFor_shape (pre key : Str) (c : Nat) (n v : Str)
    (h : entryFor pre key c = some (n, v)) :
    key = pre ++ key.drop pre.length ∧
    ((47 ∈ key.drop pre.length ∧
        n = (key.drop pre.length).takeWhile (fun b => b ≠ 47) ++ [47] ∧
        v = bytesOf ("DIR")) ∨
      (47 ∉ key.drop pre.length ∧ n = key.drop pre.length ∧
        v = [114] ++ natToDec c)) := by
  unfold entryFor at h
  by_cases hp : pre <+: key
  · rw [if_pos hp] at h
    have hkey : key = pre ++ key.drop pre.length := by
      obtain ⟨t, ht⟩ := hp
      rw [← ht, List.drop_left]
    refine ⟨hkey, ?_⟩
    by_cases hm : 47 ∈ key.drop pre.length
    · rw [if_pos hm] at h
      simp only [Option.some.injEq, Prod.mk.injEq] at h
      exact Or.inl ⟨hm, h.1.symm, h.2.symm⟩
    · rw [if_neg hm] at h
      simp only [Option.some.injEq, Prod.mk.injEq] at h
      exact Or.inr ⟨hm, h.1.symm, h.2.symm⟩
  · rw [if_neg hp] at h
    cases h

theorem entryFor_det (st : Store) (pre : Str) (hnd : (st.map Prod.fst).Nodup)
    (kv1 kv2 : Str × List Str) (h1 : kv1 ∈ st) (h2 : kv2 ∈ st) (n v1 v2 : Str)
    (e1 : entryFor pre kv1.1 kv1.2.length = some (n, v1))
    (e2 : entryFor pre kv2.1 kv2.2.length = some (n, v2)) : v1 = v2 := by
  obtain ⟨hk1, hs1⟩ := entryFor_shape pre kv1.1 kv1.2.length n v1 e1
  obtain ⟨hk2, hs2⟩ := entryFor_shape pre kv2.1 kv2.2.length n v2 e2
  rcases hs1 with ⟨hm1, hn1, hv1⟩ | ⟨hm1, hn1, hv1⟩ <;>
    rcases hs2 with ⟨hm2, hn2, hv2⟩ | ⟨hm2, hn2, hv2⟩
  · rw [hv1, hv2]
  · exfalso
    apply hm2
    rw [← hn2, hn1]
    simp
  · exfalso
    apply hm1
    rw [← hn1, hn2]
    simp
  · rw [← hn1] at hk1
    rw [← hn2] at hk2
    have hkey : kv1.1 = kv2.1 := by rw [hk1, hk2]
    obtain ⟨k1, r1⟩ := kv1
    obtain ⟨k2, r2⟩ := kv2
    simp only at hkey hn1 hn2 hv1 hv2
    subst hkey
    have hvv : r1 = r2 := nodup_keys_value_unique st hnd k1 r1 r2 h1 h2
    rw [hv1, hv2, hvv]

theorem foldl_entries_mem (pre : Str) (l : List (Str × List Str)) :
    ∀ m : List (Str × Str),
      (∀ n v1 v2,
        ((n, v1) ∈ m ∨ ∃ kv, kv ∈ l ∧ entryFor pre kv.1 kv.2.length = some (n, v1)) →
        ((n, v2) ∈ m ∨ ∃ kv, kv ∈ l ∧ entryFor pre kv.1 kv.2.length = some (n, v2)) →
        v1 = v2) →
      ∀ e, e ∈ l.foldl (entriesStep pre) m ↔
        e ∈ m ∨ ∃ kv, kv ∈ l ∧ entryFor pre kv.1 kv.2.length = some e := by
  induction l with
  | nil =>
      intro m hdet e
      simp
  | cons kv l' ih =>
      intro m hdet e
      simp only [List.foldl_cons]
      rcases hk : entryFor pre kv.1 kv.2.length with _ | p
      · have hstep : entriesStep pre m kv = m := by
          unfold entriesStep
          rw [hk]
        rw [hstep]
        have hdet' : ∀ n v1 v2,
            ((n, v1) ∈ m ∨ ∃ kv2, kv2 ∈ l' ∧ entryFor pre kv2.1 kv2.2.length = some (n, v1)) →
            ((n, v2) ∈ m ∨ ∃ kv2, kv2 ∈ l' ∧ entryFor pre kv2.1 kv2.2.length = some (n, v2)) →
            v1 = v2 := by
          intro n v1 v2 ha hb
          apply hdet n v1 v2
          · rcases ha with ha | ⟨kv2, hkv2, he⟩
            · exact Or.inl ha
            · exact Or.inr ⟨kv2, List.mem_cons_of_mem _ hkv2, he⟩
          · rcases hb with hb | ⟨kv2, hkv2, he⟩
            · exact Or.inl hb
            · exact Or.inr ⟨kv2, List.mem_cons_of_mem _ hkv2, he⟩
        rw [ih m hdet' e]
        constructor
        · rintro (h | ⟨kv2, hkv2, he⟩)
          · exact Or.inl h
          · exact Or.inr ⟨kv2, List.mem_cons_of_mem _ hkv2, he⟩
        · rintro (h | ⟨kv2, hkv2, he⟩)
          · exact Or.inl h
          · rcases List.mem_cons.mp hkv2 with h2 | h2
            · rw [h2, hk] at he
              cases he
            · exact Or.inr ⟨kv2, h2, he⟩
      · obtain ⟨n0, v0⟩ := p
        have hstep : entriesStep pre m kv = setAssoc m n0 v0 := by
          unfold entriesStep
          rw [hk]
        rw [hstep]
        have hdet2 : ∀ n v1 v2,
            ((n, v1) ∈ setAssoc m n0 v0 ∨
              ∃ kv2, kv2 ∈ l' ∧ entryFor pre kv2.1 kv2.2.length = some (n, v1)) →
            ((n, v2) ∈ setAssoc m n0 v0 ∨
              ∃ kv2, kv2 ∈ l' ∧ entryFor pre kv2.1 kv2.2.length = some (n, v2)) →
            v1 = v2 := by
          intro n v1 v2 ha hb
          apply hdet n v1 v2
          · rcases ha with ha | ⟨kv2, hkv2, he⟩
            · rcases mem_setAssoc _ _ _ _ ha with hm | hm
              · exact Or.inl hm
              · refine Or.inr ⟨kv, List.mem_cons_self _ _, ?_⟩
                rw [hk]
                simp only [Prod.mk.injEq] at hm
                rw [hm.1, hm.2]
            · exact Or.inr ⟨kv2, List.mem_cons_of_mem _ hkv2, he⟩
          · rcases hb with hb | ⟨kv2, hkv2, he⟩
            · rcases mem_setAssoc _ _ _ _ hb with hm | hm
              · exact Or.inl hm
              · refine Or.inr ⟨kv, List.mem_cons_self _ _, ?_⟩
                rw [hk]
                simp only [Prod.mk.injEq] at hm
                rw [hm.1, hm.2]
            · exact Or.inr ⟨kv2, List.mem_cons_of_mem _ hkv2, he⟩
        rw [ih (setAssoc m n0 v0) hdet2 e]
        constructor
        · rintro (h | ⟨kv2, hkv2, he⟩)
          · rcases mem_setAssoc _ _ _ _ h with hm | hm
            · exact Or.inl hm
            · exact Or.inr ⟨kv, List.mem_cons_self _ _, by rw [hk, hm]⟩
          · exact Or.inr ⟨kv2, List.mem_cons_of_mem _ hkv2, he⟩
        · rintro (h | ⟨kv2, hkv2, he⟩)
          · obtain ⟨en, ev⟩ := e
            by_cases hn : en = n0
            · subst hn
              have hv : ev = v0 := by
                apply hdet en ev v0
                · exact Or.inl h
                · exact Or.inr ⟨kv, List.mem_cons_self _ _, by rw [hk]⟩
              subst hv
              exact Or.inl (mem_setAssoc_self m en ev)
            · exact Or.inl (mem_setAssoc_of_ne m n0 v0 (en, ev) h hn)
          · rcases List.mem_cons.mp hkv2 with h2 | h2
            · rw [h2, hk] at he
              simp only [Option.some.injEq] at he
              rw [← he]
              exact Or.inl (mem_setAssoc_self m n0 v0)
            · exact Or.inr ⟨kv2, h2, he⟩

theorem mem_buildEntries (st : Store) (pre : Str)
    (hnd : (st.map Prod.fst).Nodup) (e : Str × Str) :
    e ∈ buildEntries st pre ↔
      ∃ kv, kv ∈ st ∧ entryFor pre kv.1 kv.2.length = some e := by
  have hdet : ∀ n v1 v2,
      ((n, v1) ∈ ([] : List (Str × Str)) ∨
        ∃ kv, kv ∈ st ∧ entryFor pre kv.1 kv.2.length = some (n, v1)) →
      ((n, v2) ∈ ([] : List (Str × Str)) ∨
        ∃ kv, kv ∈ st ∧ entryFor pre kv.1 kv.2.length = some (n, v2)) →
      v1 = v2 := by
    intro n v1 v2 ha hb
    rcases ha with ha | ⟨kv1, hkv1, he1⟩
    · simp at ha
    rcases hb with hb | ⟨kv2, hkv2, he2⟩
    · simp at hb
    exact entryFor_det st pre hnd kv1 kv2 hkv1 hkv2 n v1 v2 he1 he2
  unfold buildEntries
  rw [foldl_entries_mem pre st [] hdet e]
  simp

/-- C7: the LIST projection against any store with unique keys: every
stored key under the prefix contributes exactly its projected entry (a
collapsed `<seg>/ DIR` entry when the relative path has a slash, else the
file entry with metadata `r<count>`); every emitted entry comes from such a
key; the emitted names are strictly ascending in byte order (hence no
duplicates); and the emitted response is `OK <count>` for exactly the
number of entries, followed by the entry lines. -/
theorem c7_list_projection (st : Store) (d input : Str)
    (hnd : (st.map Prod.fst).Nodup) :
    (∀ kv, kv ∈ st → ∀ e, entryFor (listPre d) kv.1 kv.2.length = some e →
        e ∈ listProjection st d) ∧
    (∀ e, e ∈ listProjection st d →
        ∃ kv, kv ∈ st ∧ entryFor (listPre d) kv.1 kv.2.length = some e) ∧
    (listProjection st d).Pairwise (fun a b => lexLt a.1 b.1 = true) ∧
    execCommand st [bytesOf ("LIST"), d] input =
      .reply (okListReply (listProjection st d)) st input := by
  have hperm := perm_sortEntries (buildEntries st (listPre d))
  refine ⟨?_, ?_, ?_, rfl⟩
  · intro kv hkv e he
    unfold listProjection
    rw [hperm.mem_iff]
    exact (mem_buildEntries st (listPre d) hnd e).mpr ⟨kv, hkv, he⟩
  · intro e he
    unfold listProjection at he
    rw [hperm.mem_iff] at he
    exact (mem_buildEntries st (listPre d) hnd e).mp he
  · apply pairwise_lt_of_le_nodup
    · exact pairwise_sortEntries _
    · exact ((hperm.map Prod.fst).nodup_iff).mpr (buildEntries_keys_nodup st (listPre d))

theorem c7_list_projection_witness :
    (listProjection [(bytesOf ("/dir/a.txt"), [bytesOf ("A")]),
        (bytesOf ("/dir/sub/b.txt"), [bytesOf ("B")])] (bytesOf ("/dir"))).Pairwise
      (fun a b => lexLt a.1 b.1 = true) :=
  (c7_list_projection [(bytesOf ("/dir/a.txt"), [bytesOf ("A")]),
      (bytesOf ("/dir/sub/b.txt"), [bytesOf ("B")])] (bytesOf ("/dir")) []
      (by decide)).2.2.1
